import Mathlib

set_option linter.unusedVariables false

/-!
Verification of the change-tracking / undo-redo layer for shared segment
sequences (`sequenceHandler.ts`) and of the sparse 2D addressing component
(`sparsematrix.ts`).

The merge-tree engine itself is external to the sample; the parts of its
contract that the sample calls into (tracking groups, position resolution,
the mutation primitives) are modelled explicitly and marked
"Modelled from the spec".  Everything else is a direct translation of the
TypeScript source.
-/

/-- A property set: key to value map, written as an association list. -/
abbrev PropertySet := List (String × Nat)

/-- Modelled from the spec: the merge-tree engine's `matchProperties`
(not part of the sample) decides property-wise equality of two property
sets. -/
def matchProperties (a b : PropertySet) : Bool :=
  a.all (fun p => b.lookup p.1 == some p.2) && b.all (fun p => a.lookup p.1 == some p.2)

/-- The merge-tree delta operation kinds.  `insert`, `remove` and `annotate`
are the `MergeTreeDeltaOperationType` values the recorder stores; `group`
stands for any further `MergeTreeDeltaType` member, reaching the `default`
arm of the revert switch. -/
inductive MergeTreeDeltaType where
  | insert
  | remove
  | annotate
  | group
deriving DecidableEq, Repr

/-- Serialized segment shapes, after `SparseMatrixFactory.segmentFromSpec`:
a padding spec carries a `pad` length, a run spec carries an `items` list;
any other shape is unrecognized. -/
inductive SegSpec where
  | pad (len : Nat) (props : PropertySet)
  | items (vals : List Nat) (props : PropertySet)
  | other
deriving DecidableEq, Repr

/-- A segment as seen by the undo-redo layer: its serialized shape
(what `toJSONObject` returns), the engine's removal marker `removedSeq`,
its `cachedLength`, and `pos`.  The `pos` field — Modelled from the spec:
the engine primitive "resolve a segment's current logical position"
(`sequence.getPosition`). -/
structure Seg where
  spec : SegSpec
  removedSeq : Option Nat
  cachedLength : Nat
  pos : Nat
deriving DecidableEq, Repr

instance : Inhabited Seg := ⟨⟨SegSpec.other, none, 0, 0⟩⟩

/-- Modelled from the spec: the engine mutation primitives the revert path
issues (remove a range, insert at a transient reference anchored at a
segment, annotate a range).  The world records the calls in order; an
`insertAtRef` call carries the anchor segment, the id given to the freshly
inserted segment, and the serialized form it was reconstructed from. -/
inductive EngineOp where
  | removeRange (start stop : Nat)
  | insertAtRef (anchor newSeg : Nat) (spec : SegSpec)
  | annotateRange (start stop : Nat) (props : PropertySet)
deriving DecidableEq, Repr

/-- Modelled from the spec: the engine-owned shared state the sample works
against — the segment bookkeeping, the tracking groups (a group id maps to
the list of segment ids currently linked, in link order, so the head is
`segments[0]`), the trace of mutation primitives issued so far, and fresh-id
counters for inserted segments and for newly created tracking groups. -/
structure World where
  segs : List (Nat × Seg)
  groups : List (Nat × List Nat)
  trace : List EngineOp
  nextSeg : Nat
  nextGroup : Nat
deriving DecidableEq, Repr

/-- Association-list lookup keyed by segment / group / sequence id. -/
def alookup {β : Type} (k : Nat) : List (Nat × β) → Option β
  | [] => none
  | p :: ps => if p.1 = k then some p.2 else alookup k ps

/-- The segments currently linked to a tracking group (`group.segments`). -/
def groupSegs (w : World) (g : Nat) : List Nat :=
  (alookup g w.groups).getD []

/-- Fetch a segment by id. -/
def lookupSeg (w : World) (s : Nat) : Seg :=
  (alookup s w.segs).getD default

/-- Set-like insertion used by `TrackingGroup.link`: a segment already in
the group is not linked twice. -/
def linkList (s : Nat) (l : List Nat) : List Nat :=
  if s ∈ l then l else l ++ [s]

/-- Removal of a segment from a group's segment list, used by `unlink`. -/
def eraseSeg (s : Nat) : List Nat → List Nat
  | [] => []
  | x :: xs => if x = s then eraseSeg s xs else x :: eraseSeg s xs

/-- Apply an update to the group with the given id. -/
def updGroup (g : Nat) (u : List Nat → List Nat) (gs : List (Nat × List Nat)) :
    List (Nat × List Nat) :=
  gs.map (fun p => if p.1 = g then (p.1, u p.2) else p)

/-- Modelled from the spec: `TrackingGroup.link(segment)`. -/
def linkSeg (w : World) (g s : Nat) : World :=
  { w with groups := updGroup g (linkList s) w.groups }

/-- Modelled from the spec: removal of the group/segment edge, as performed
by `TrackingGroup.unlink(segment)` and equally by
`segment.trackingCollection.unlink(group)` (both ends drop the same edge). -/
def unlinkSeg (w : World) (g s : Nat) : World :=
  { w with groups := updGroup g (eraseSeg s) w.groups }

/-- The effect of `tg.link(insertSegment); tg.unlink(sg)` on one group's
segment list. -/
def migrateGroup (oldSeg newSeg : Nat) (l : List Nat) : List Nat :=
  eraseSeg oldSeg (linkList newSeg l)

/-- The revert `REMOVE` arm's `sg.trackingCollection.trackingGroups.forEach`
loop: every group still linked to `oldSeg` links `newSeg` and unlinks
`oldSeg`. -/
def migrateLinks (w : World) (oldSeg newSeg : Nat) : World :=
  { w with groups := w.groups.map (fun p =>
      if oldSeg ∈ p.2 then (p.1, migrateGroup oldSeg newSeg p.2) else p) }

/-- Record one engine mutation call. -/
def addTrace (w : World) (op : EngineOp) : World :=
  { w with trace := w.trace ++ [op] }

/-- One coalesced entry of a Revertable (`ITrackedSharedSegmentSequenceRevertable`). -/
structure TrackedEntry where
  trackingGroup : Nat
  propertyDelta : PropertySet
  operation : MergeTreeDeltaType
deriving DecidableEq, Repr

/-- `SparseMatrixFactory.segmentFromSpec`: try the padding shape, then the
run shape, and fail on anything else.  The reconstructed segment is fresh:
no removal marker, length from the shape; its position is assigned at
insertion. -/
def segmentFromSpec : SegSpec → Except String Seg
  | SegSpec.pad len props => Except.ok ⟨SegSpec.pad len props, none, len, 0⟩
  | SegSpec.items vals props => Except.ok ⟨SegSpec.items vals props, none, vals.length, 0⟩
  | SegSpec.other => Except.error "Unrecognized IJSONObject"

/-- The body of one iteration of the inner `revert()` loop of
`SharedSegmentSequenceRevertable`: unlink `segments[0]` from the entry's
group, then switch on the entry's operation kind.  The `ANNOTATE` arm of the
source has no `break` and falls through into the `default` arm, so it
returns the fatal error even after issuing the annotate call. -/
def revertSegment (w0 : World) (op : MergeTreeDeltaType) (props : PropertySet)
    (tg sid : Nat) : World × Option String :=
  let w := unlinkSeg w0 tg sid
  let sg := lookupSeg w sid
  match op with
  | MergeTreeDeltaType.insert =>
    if sg.removedSeq = none then
      (addTrace w (EngineOp.removeRange sg.pos (sg.pos + sg.cachedLength)), none)
    else
      (w, none)
  | MergeTreeDeltaType.remove =>
    match segmentFromSpec sg.spec with
    | Except.error e => (w, some e)
    | Except.ok fresh =>
      let nid := w.nextSeg
      let w1 := { w with
        segs := w.segs ++ [(nid, { fresh with pos := sg.pos })],
        nextSeg := nid + 1,
        trace := w.trace ++ [EngineOp.insertAtRef sid nid sg.spec] }
      (migrateLinks w1 sid nid, none)
  | MergeTreeDeltaType.annotate =>
    let w1 :=
      if sg.removedSeq = none then
        addTrace w (EngineOp.annotateRange sg.pos (sg.pos + sg.cachedLength) props)
      else w
    (w1, some "operationt type not revertable")
  | MergeTreeDeltaType.group => (w, some "operationt type not revertable")

/-! Supporting lemmas needed to justify termination of the drain loops. -/

theorem length_eraseSeg_le (s : Nat) (l : List Nat) :
    (eraseSeg s l).length ≤ l.length := by
  induction l with
  | nil => simp [eraseSeg]
  | cons x xs ih =>
    simp only [eraseSeg]
    split
    · exact Nat.le_succ_of_le ih
    · simpa using ih

theorem eraseSeg_eq_filter (s : Nat) (l : List Nat) :
    eraseSeg s l = l.filter (fun x => x != s) := by
  induction l with
  | nil => rfl
  | cons x xs ih => by_cases h : x = s <;> simp [eraseSeg, h, ih]

theorem mem_eraseSeg (x s : Nat) (l : List Nat) :
    x ∈ eraseSeg s l ↔ x ∈ l ∧ x ≠ s := by
  simp [eraseSeg_eq_filter, List.mem_filter]

theorem not_mem_eraseSeg_self (s : Nat) (l : List Nat) : s ∉ eraseSeg s l := by
  intro h
  exact ((mem_eraseSeg s s l).mp h).2 rfl

theorem alookup_updGroup_self (u : List Nat → List Nat) (g : Nat)
    (gs : List (Nat × List Nat)) :
    alookup g (updGroup g u gs) = (alookup g gs).map u := by
  induction gs with
  | nil => rfl
  | cons p ps ih =>
    by_cases h : p.1 = g
    · simp [updGroup, alookup, h]
    · simpa [updGroup, alookup, h] using ih

theorem alookup_updGroup_other (u : List Nat → List Nat) (g g' : Nat)
    (h : g' ≠ g) (gs : List (Nat × List Nat)) :
    alookup g' (updGroup g u gs) = alookup g' gs := by
  induction gs with
  | nil => rfl
  | cons p ps ih =>
    by_cases hp : p.1 = g
    · simpa [updGroup, alookup, hp, h, Ne.symm h] using ih
    · by_cases hp' : p.1 = g'
      · simp [updGroup, alookup, hp, hp', h, Ne.symm h]
      · simpa [updGroup, alookup, hp, hp'] using ih

theorem groupSegs_unlink_self (w : World) (g s : Nat) :
    groupSegs (unlinkSeg w g s) g = eraseSeg s (groupSegs w g) := by
  simp only [groupSegs, unlinkSeg]
  rw [alookup_updGroup_self]
  cases alookup g w.groups <;> simp [eraseSeg]

theorem groupSegs_unlink_other (w : World) (g g' s : Nat) (h : g' ≠ g) :
    groupSegs (unlinkSeg w g s) g' = groupSegs w g' := by
  simp only [groupSegs, unlinkSeg]
  rw [alookup_updGroup_other _ _ _ h]

theorem alookup_migrate (oldSeg newSeg g : Nat) (gs : List (Nat × List Nat)) :
    alookup g (gs.map (fun p =>
        if oldSeg ∈ p.2 then (p.1, migrateGroup oldSeg newSeg p.2) else p)) =
      (alookup g gs).map (fun l =>
        if oldSeg ∈ l then migrateGroup oldSeg newSeg l else l) := by
  induction gs with
  | nil => rfl
  | cons p ps ih =>
    by_cases hp : p.1 = g
    · by_cases hm : oldSeg ∈ p.2 <;> simp [alookup, hp, hm]
    · by_cases hm : oldSeg ∈ p.2 <;> simpa [alookup, hp, hm] using ih

theorem groupSegs_migrateLinks (w : World) (oldSeg newSeg g : Nat) :
    groupSegs (migrateLinks w oldSeg newSeg) g =
      if oldSeg ∈ groupSegs w g then migrateGroup oldSeg newSeg (groupSegs w g)
      else groupSegs w g := by
  simp only [groupSegs, migrateLinks]
  rw [alookup_migrate]
  cases alookup g w.groups <;> simp

theorem revertSegment_groupSegs (w0 : World) (op : MergeTreeDeltaType)
    (props : PropertySet) (tg sid : Nat) :
    groupSegs (revertSegment w0 op props tg sid).1 tg =
      eraseSeg sid (groupSegs w0 tg) := by
  have hu := groupSegs_unlink_self w0 tg sid
  cases op with
  | insert =>
    simp only [revertSegment]
    split
    · exact hu
    · exact hu
  | remove =>
    simp only [revertSegment]
    cases hs : segmentFromSpec (lookupSeg (unlinkSeg w0 tg sid) sid).spec with
    | error e =>
      simp only [hs]
      exact hu
    | ok fresh =>
      simp only [hs]
      rw [groupSegs_migrateLinks]
      simp only [groupSegs] at hu ⊢
      rw [hu]
      rw [if_neg (not_mem_eraseSeg_self sid _)]
  | annotate =>
    simp only [revertSegment]
    split
    · exact hu
    · exact hu
  | group =>
    simp only [revertSegment]
    exact hu

/-- The inner `while (tracked.trackingGroup.size > 0)` loop of `revert()`:
drain the entry's tracking group, applying the inverse operation per
segment; a thrown error stops the loop and propagates. -/
def drainEntry (e : TrackedEntry) (w : World) : World × Option String :=
  match h : groupSegs w e.trackingGroup with
  | [] => (w, none)
  | sid :: _ =>
    let r := revertSegment w e.operation e.propertyDelta e.trackingGroup sid
    match r.2 with
    | some err => (r.1, some err)
    | none => drainEntry e r.1
termination_by (groupSegs w e.trackingGroup).length
decreasing_by
  rw [revertSegment_groupSegs, h]
  simp only [eraseSeg, if_pos rfl, List.length_cons]
  exact Nat.lt_succ_of_le (length_eraseSeg_le _ _)

/-- The inner loop of `disgard()`: unlink `segments[0]` until the group is
empty; no inverse operation is applied. -/
def disgardEntry (e : TrackedEntry) (w : World) : World :=
  match h : groupSegs w e.trackingGroup with
  | [] => w
  | sid :: _ => disgardEntry e (unlinkSeg w e.trackingGroup sid)
termination_by (groupSegs w e.trackingGroup).length
decreasing_by
  rw [groupSegs_unlink_self, h]
  simp only [eraseSeg, if_pos rfl, List.length_cons]
  exact Nat.lt_succ_of_le (length_eraseSeg_le _ _)

theorem drainEntry_eq (e : TrackedEntry) (w : World) :
    drainEntry e w = match groupSegs w e.trackingGroup with
      | [] => (w, none)
      | sid :: _ =>
        let r := revertSegment w e.operation e.propertyDelta e.trackingGroup sid
        match r.2 with
        | some err => (r.1, some err)
        | none => drainEntry e r.1 := by
  rw [drainEntry]
  rcases hg : groupSegs w e.trackingGroup with _ | ⟨s, tl⟩ <;> simp [hg]

theorem disgardEntry_eq (e : TrackedEntry) (w : World) :
    disgardEntry e w = match groupSegs w e.trackingGroup with
      | [] => w
      | sid :: _ => disgardEntry e (unlinkSeg w e.trackingGroup sid) := by
  rw [disgardEntry]
  rcases hg : groupSegs w e.trackingGroup with _ | ⟨s, tl⟩ <;> simp [hg]

/-- Bounded-iteration version of the inner `revert()` loop, used to state
that the loop terminates: `none` means the iteration budget ran out. -/
def drainEntryFuel : Nat → TrackedEntry → World → Option (World × Option String)
  | 0, _, _ => none
  | fuel + 1, e, w =>
    match groupSegs w e.trackingGroup with
    | [] => some (w, none)
    | sid :: _ =>
      let r := revertSegment w e.operation e.propertyDelta e.trackingGroup sid
      match r.2 with
      | some err => some (r.1, some err)
      | none => drainEntryFuel fuel e r.1

/-- Bounded-iteration version of the inner `disgard()` loop. -/
def disgardEntryFuel : Nat → TrackedEntry → World → Option World
  | 0, _, _ => none
  | fuel + 1, e, w =>
    match groupSegs w e.trackingGroup with
    | [] => some w
    | sid :: _ => disgardEntryFuel fuel e (unlinkSeg w e.trackingGroup sid)

/-- One affected range of a sequence delta event: the segment it touched and
the property delta the operation applied to it. -/
structure SequenceDeltaRange where
  segment : Nat
  propertyDeltas : PropertySet
deriving DecidableEq, Repr

/-- A `SequenceDeltaEvent`: locality flag, operation kind, affected ranges. -/
structure SequenceDeltaEvent where
  isLocal : Bool
  deltaOperation : MergeTreeDeltaType
  ranges : List SequenceDeltaRange
deriving DecidableEq, Repr

/-- The `for (const range of event.ranges)` loop of
`SharedSegmentSequenceRevertable.add`: coalesce a range into the current
tail entry when the operation kind and the property delta match, otherwise
start a fresh tracking group, link the segment, and append a new entry. -/
def addLoop (op : MergeTreeDeltaType) :
    List SequenceDeltaRange → Option TrackedEntry → List TrackedEntry → World →
    List TrackedEntry × World
  | [], current, tracking, w => (tracking, w)
  | r :: rs, current, tracking, w =>
    match current with
    | some c =>
      if c.operation = op ∧ matchProperties c.propertyDelta r.propertyDeltas = true then
        addLoop op rs (some c) tracking (linkSeg w c.trackingGroup r.segment)
      else
        let gid := w.nextGroup
        let w1 := { w with groups := w.groups ++ [(gid, [r.segment])], nextGroup := gid + 1 }
        let e : TrackedEntry := ⟨gid, r.propertyDeltas, op⟩
        addLoop op rs (some e) (tracking ++ [e]) w1
    | none =>
      let gid := w.nextGroup
      let w1 := { w with groups := w.groups ++ [(gid, [r.segment])], nextGroup := gid + 1 }
      let e : TrackedEntry := ⟨gid, r.propertyDeltas, op⟩
      addLoop op rs (some e) (tracking ++ [e]) w1

/-- A `SharedSegmentSequenceRevertable`: its ordered entry list, paired with
the engine world it works against. -/
structure Revertable where
  tracking : List TrackedEntry
  world : World
deriving DecidableEq, Repr

/-- `SharedSegmentSequenceRevertable.add`: if the event has ranges, scan
them starting from the current tail entry. -/
def Revertable.add (st : Revertable) (event : SequenceDeltaEvent) : Revertable :=
  if event.ranges.length > 0 then
    let p := addLoop event.deltaOperation event.ranges st.tracking.getLast?
      st.tracking st.world
    { tracking := p.1, world := p.2 }
  else st

/-- The outer `while (this.tracking.length > 0)` loop of `revert()`, acting
on the entry list already reversed (entries are popped from the tail).  A
thrown error stops the loop; the first component returns the entries not yet
processed. -/
def revertList : List TrackedEntry → World → List TrackedEntry × World × Option String
  | [], w => ([], w, none)
  | e :: rest, w =>
    match drainEntry e w with
    | (w1, some err) => (rest, w1, some err)
    | (w1, none) => revertList rest w1

/-- `SharedSegmentSequenceRevertable.revert`. -/
def Revertable.revert (st : Revertable) : Revertable × Option String :=
  let r := revertList st.tracking.reverse st.world
  ({ tracking := r.1.reverse, world := r.2.1 }, r.2.2)

/-- The outer loop of `disgard()`. -/
def disgardList : List TrackedEntry → World → World
  | [], w => w
  | e :: rest, w => disgardList rest (disgardEntry e w)

/-- `SharedSegmentSequenceRevertable.disgard` (the source's spelling). -/
def Revertable.disgard (st : Revertable) : Revertable :=
  { tracking := [], world := disgardList st.tracking.reverse st.world }

/-- `Map.set` on the handler's sequence-to-revertable map. -/
def setSeq (t : Nat) (v : List TrackedEntry) :
    List (Nat × List TrackedEntry) → List (Nat × List TrackedEntry)
  | [] => [(t, v)]
  | p :: ps => if p.1 = t then (t, v) :: ps else p :: setSeq t v ps

/-- State of a `SharedSegmentSequenceUndoRedoHandler`: the sequence map
(target id to the open revertable's entry list), the number of revertables
handed to `stackManager.pushToCurrentOperation`, and the engine world. -/
structure HandlerState where
  sequences : List (Nat × List TrackedEntry)
  pushed : Nat
  world : World
deriving DecidableEq, Repr

/-- `SharedSegmentSequenceUndoRedoHandler.sequenceDeltaHandler`: local
events open (or reuse) the target's revertable and record the event into
it; non-local events do nothing. -/
def sequenceDeltaHandler (hs : HandlerState) (target : Nat)
    (event : SequenceDeltaEvent) : HandlerState :=
  if event.isLocal then
    match alookup target hs.sequences with
    | none =>
      let st := Revertable.add ⟨[], hs.world⟩ event
      { sequences := setSeq target st.tracking hs.sequences,
        pushed := hs.pushed + 1,
        world := st.world }
    | some tr =>
      let st := Revertable.add ⟨tr, hs.world⟩ event
      { sequences := setSeq target st.tracking hs.sequences,
        pushed := hs.pushed,
        world := st.world }
  else hs

/-! The sparse 2D addressing component (`sparsematrix.ts`). -/

def maxCol : Nat := 0x200000

def maxCols : Nat := maxCol + 1

def maxRow : Nat := 0xFFFFFFFF

def maxRows : Nat := maxRow + 1

def maxCellPosition : Nat := maxCol * maxRow

/-!
The source computes positions with JavaScript numbers, that is IEEE-754
binary64 doubles.  All values met here are nonnegative integers, so the
double arithmetic is modelled exactly over `Nat`: an integer is a double
iff its significand fits in 53 bits, and each arithmetic operation returns
the true result rounded to the nearest such integer, ties going to the
value with even significand.  The model below implements exactly that
rounding; positions produced by `rowColToPosition` exceed `2 ^ 53` for
large rows, where the rounding is observable.
-/

/-- Binary digit count, by structural recursion on a fuel bound (128 covers
every value this model meets): `bitsFuel f 0 = 0` and `2 ^ (bits n - 1) ≤ n
< 2 ^ bits n` for `0 < n < 2 ^ f`. -/
def bitsFuel : Nat → Nat → Nat
  | 0, _ => 0
  | fuel + 1, n => if n = 0 then 0 else bitsFuel fuel (n / 2) + 1

/-- Binary digit count of the values this model meets. -/
def bits (n : Nat) : Nat := bitsFuel 128 n

/-- `num / den` rounded to the nearest integer, ties to even — the IEEE-754
default rounding applied to a significand. -/
def roundTiesEvenDiv (num den : Nat) : Nat :=
  let q := num / den
  let r := num % den
  if 2 * r < den then q
  else if 2 * r > den then q + 1
  else if q % 2 = 0 then q else q + 1

/-- The nearest binary64 double to the nonnegative integer `n` (ties to
even significand): integers up to `2 ^ 53` are exact; above, the value is
rounded to the representable grid of its binade, whose spacing is
`2 ^ (bits n - 53)`. -/
def flNat (n : Nat) : Nat :=
  if n ≤ 2 ^ 53 then n
  else
    let g := 2 ^ (bits n - 53)
    roundTiesEvenDiv n g * g

/-- `Math.floor(a / b)` in binary64: the quotient `a / b` is correctly
rounded to the nearest double of its own binade (`2 ^ k ≤ a / b <
2 ^ (k+1)`, grid spacing `2 ^ (k - 52)`), then truncated.  For `a < b` the
quotient is below one and floors to `0` unless it rounds up to exactly `1`
(which needs `a / b ≥ 1 - 2 ^ (-54)`).  `b = 0` (JS Infinity) is not
reachable here. -/
def jsFloorDiv (a b : Nat) : Nat :=
  if b = 0 then 0
  else if a < b then
    (if 2 ^ 54 * (b - a) ≤ b then 1 else 0)
  else
    let k := bits (a / b) - 1
    if k ≤ 52 then
      roundTiesEvenDiv (a * 2 ^ (52 - k)) b / 2 ^ (52 - k)
    else
      roundTiesEvenDiv a (b * 2 ^ (k - 52)) * 2 ^ (k - 52)

/-- `rowColToPosition`: the source's `row * maxCols + col`, with the
multiplication and the addition each correctly rounded to binary64 (`row`
and `col` are within their exact range on the claimed domain). -/
def rowColToPosition (row col : Nat) : Nat :=
  flNat (flNat (row * maxCols) + col)

/-- The record returned by `positionToRowCol`. -/
structure RowCol where
  row : Nat
  col : Nat
deriving DecidableEq, Repr

/-- `positionToRowCol`: `Math.floor(position / maxCols)` in binary64, then
`position - row * maxCols` with the product and the difference correctly
rounded (the difference is taken in `Nat`; it is nonnegative whenever the
quotient did not round up across an integer, as on every input considered
here). -/
def positionToRowCol (position : Nat) : RowCol :=
  let row := jsFloorDiv position maxCols
  ⟨row, flNat (position - flNat (row * maxCols))⟩

/-- A concrete segment of the matrix sequence: a content run, padding, or
any other (unrecognized) segment kind. -/
inductive MatrixSeg where
  | run (items : List Nat)
  | pad (len : Nat)
  | other (len : Nat)
deriving DecidableEq, Repr

def MatrixSeg.cachedLength : MatrixSeg → Nat
  | run items => items.length
  | pad len => len
  | other len => len

/-- Modelled from the spec: the engine primitive "resolve position to its
containing segment and in-segment offset" (`getContainingSegment`), over
the sequence's segments in order. -/
def getContainingSegment : List MatrixSeg → Nat → Option (MatrixSeg × Nat)
  | [], _ => none
  | s :: rest, pos =>
    if pos < s.cachedLength then some (s, pos)
    else getContainingSegment rest (pos - s.cachedLength)

/-- `SparseMatrix.getItem`: run segments yield the item at the offset,
padding yields undefined, anything else is an unrecognized-segment error.
An unresolved position propagates as a resolution failure. -/
def getItem (segs : List MatrixSeg) (row col : Nat) : Except String (Option Nat) :=
  match getContainingSegment segs (rowColToPosition row col) with
  | none => Except.error "position not resolved"
  | some (MatrixSeg.run items, offset) => Except.ok (items.get? offset)
  | some (MatrixSeg.pad _, _) => Except.ok none
  | some (MatrixSeg.other _, _) => Except.error "Unrecognized Segment type"

/-- A primitive local edit of the matrix sequence, as produced by
`client.removeRangeLocal` / `client.insertSegmentLocal` of a fresh
`PaddingSegment`. -/
inductive MatrixOp where
  | removeRange (start stop : Nat)
  | insertPadding (pos len : Nat)
deriving DecidableEq, Repr

/-- The single grouped operation built by `createGroupOp(...ops)`. -/
structure GroupOp where
  ops : List MatrixOp
deriving DecidableEq, Repr

/-- `SparseMatrix.moveAsPadding(srcCol, destCol, numCols)`: for every
existing row, remove `[rowStart+srcCol, rowStart+srcCol+numCols)` and
insert a fresh padding segment of length `numCols` at `rowStart+destCol`,
accumulating the per-row operations in order. -/
def moveAsPadding (numRows srcCol destCol numCols : Nat) : GroupOp :=
  ⟨(List.range numRows).flatMap (fun r =>
    let rowStart := r * maxCols
    [MatrixOp.removeRange (rowStart + srcCol) (rowStart + srcCol + numCols),
     MatrixOp.insertPadding (rowStart + destCol) numCols])⟩

/-- `submitSequenceMessage`: one call submits one message. -/
def submitSequenceMessage (log : List GroupOp) (op : GroupOp) : List GroupOp :=
  log ++ [op]

/-- `SparseMatrix.insertCols(col, numCols)`. -/
def insertCols (log : List GroupOp) (numRows col numCols : Nat) : List GroupOp :=
  submitSequenceMessage log (moveAsPadding numRows (maxCol - numCols) col numCols)

/-- `SparseMatrix.removeCols(col, numCols)`. -/
def removeCols (log : List GroupOp) (numRows col numCols : Nat) : List GroupOp :=
  submitSequenceMessage log (moveAsPadding numRows col (maxCol - numCols) numCols)

/-! Concrete configurations used to exhibit the behaviour of the code on
specific inputs. -/

/-- A revertable holding one annotate entry whose segment is live (not
removed). -/
def annotateExample : Revertable :=
  ⟨[⟨10, [("bold", 1)], MergeTreeDeltaType.annotate⟩],
   ⟨[(1, ⟨SegSpec.items [5] [], none, 1, 0⟩)], [(10, [1])], [], 2, 11⟩⟩

/-- A revertable holding one insert entry over a live segment. -/
def insertExample : Revertable :=
  ⟨[⟨10, [], MergeTreeDeltaType.insert⟩],
   ⟨[(1, ⟨SegSpec.items [5] [], none, 1, 3⟩)], [(10, [1])], [], 2, 11⟩⟩

/-- A world where segment 1 is removed and linked by the entry group 10 and
by a second, unrelated group 20. -/
def removeExample : World :=
  ⟨[(1, ⟨SegSpec.items [9] [("k", 2)], some 5, 1, 4⟩)],
   [(10, [1]), (20, [1, 7])], [], 2, 30⟩

/-- A revertable with two entries to discard. -/
def disgardExample : Revertable :=
  ⟨[⟨10, [], MergeTreeDeltaType.insert⟩, ⟨20, [], MergeTreeDeltaType.remove⟩],
   ⟨[(1, ⟨SegSpec.items [5] [], none, 1, 0⟩), (2, ⟨SegSpec.pad 2 [], some 7, 2, 9⟩)],
    [(10, [1, 2]), (20, [2])], [], 3, 30⟩⟩

/-- An empty revertable over an empty world. -/
def emptyRevertable : Revertable := ⟨[], ⟨[], [], [], 0, 100⟩⟩

/-- A revertable whose recorder state is empty. -/
def recorderFresh : Revertable := ⟨[], ⟨[], [], [], 0, 100⟩⟩

/-- A recorder state holding one annotate tail entry with group 100. -/
def recorderTail : Revertable :=
  ⟨[⟨100, [("x", 1)], MergeTreeDeltaType.annotate⟩],
   ⟨[], [(100, [1, 2, 3])], [], 0, 101⟩⟩

/-- A local annotate event over three segments with one shared delta. -/
def eventMatching : SequenceDeltaEvent :=
  ⟨true, MergeTreeDeltaType.annotate, [⟨1, [("x", 1)]⟩, ⟨2, [("x", 1)]⟩, ⟨3, [("x", 1)]⟩]⟩

/-- A local annotate event with the same delta over one further segment. -/
def eventMatchingMore : SequenceDeltaEvent :=
  ⟨true, MergeTreeDeltaType.annotate, [⟨4, [("x", 1)]⟩]⟩

/-- A local annotate event whose delta differs from the recorded one. -/
def eventMismatch : SequenceDeltaEvent :=
  ⟨true, MergeTreeDeltaType.annotate, [⟨5, [("y", 2)]⟩]⟩

/-- A non-local event. -/
def eventRemote : SequenceDeltaEvent :=
  ⟨false, MergeTreeDeltaType.insert, [⟨1, []⟩]⟩

/-- A handler state over an empty world. -/
def handlerExample : HandlerState := ⟨[], 0, ⟨[], [], [], 0, 0⟩⟩

/-- A matrix sequence: a run of two items, then padding, then an
unrecognized segment kind. -/
def matrixExample : List MatrixSeg :=
  [MatrixSeg.run [7, 8], MatrixSeg.pad 5, MatrixSeg.other 3]

/-! Helper lemmas. -/

theorem mem_linkList (x s : Nat) (l : List Nat) :
    x ∈ linkList s l ↔ x ∈ l ∨ x = s := by
  unfold linkList
  by_cases h : s ∈ l
  · simp only [if_pos h]
    constructor
    · exact Or.inl
    · rintro (hx | rfl)
      · exact hx
      · exact h
  · simp [if_neg h]

theorem groupSegs_link_self (w : World) (g s : Nat)
    (h : (alookup g w.groups).isSome = true) :
    groupSegs (linkSeg w g s) g = linkList s (groupSegs w g) := by
  simp only [groupSegs, linkSeg]
  rw [alookup_updGroup_self]
  rcases ha : alookup g w.groups with _ | l
  · rw [ha] at h; cases h
  · simp

theorem groupSegs_link_other (w : World) (g g' s : Nat) (h : g' ≠ g) :
    groupSegs (linkSeg w g s) g' = groupSegs w g' := by
  simp only [groupSegs, linkSeg]
  rw [alookup_updGroup_other _ _ _ h]

theorem isSome_link (w : World) (g s k : Nat) :
    (alookup k (linkSeg w g s).groups).isSome = (alookup k w.groups).isSome := by
  simp only [linkSeg]
  by_cases h : k = g
  · subst h
    rw [alookup_updGroup_self]
    cases alookup k w.groups <;> rfl
  · rw [alookup_updGroup_other _ _ _ h]

theorem alookup_append_fresh {β : Type} (gs : List (Nat × β)) (k : Nat) (v : β)
    (h : ∀ p ∈ gs, p.1 ≠ k) :
    alookup k (gs ++ [(k, v)]) = some v := by
  induction gs with
  | nil => simp [alookup]
  | cons p ps ih =>
    have hp : p.1 ≠ k := h p (List.mem_cons_self p ps)
    simp only [List.cons_append, alookup, if_neg hp]
    exact ih (fun q hq => h q (List.mem_cons_of_mem p hq))

theorem lookupSeg_unlink (w : World) (g s x : Nat) :
    lookupSeg (unlinkSeg w g s) x = lookupSeg w x := rfl

theorem trace_unlink (w : World) (g s : Nat) :
    (unlinkSeg w g s).trace = w.trace := rfl

theorem revertList_single (e : TrackedEntry) (w : World) :
    revertList [e] w = ([], (drainEntry e w).1, (drainEntry e w).2) := by
  simp only [revertList]
  rcases h : drainEntry e w with ⟨w1, err⟩
  cases err <;> simp [revertList]

theorem revert_single (e : TrackedEntry) (w : World) :
    Revertable.revert ⟨[e], w⟩ = (⟨[], (drainEntry e w).1⟩, (drainEntry e w).2) := by
  simp [Revertable.revert, revertList_single]

theorem revertList_none_processed (ts : List TrackedEntry) (w : World)
    (h : (revertList ts w).2.2 = none) : (revertList ts w).1 = [] := by
  induction ts generalizing w with
  | nil => rfl
  | cons e rest ih =>
    simp only [revertList] at h ⊢
    rcases hd : drainEntry e w with ⟨w1, err⟩
    cases err with
    | none => simp only [hd] at h ⊢; exact ih w1 h
    | some s => simp only [hd] at h ⊢; cases h

theorem revert_empty (w : World) :
    Revertable.revert ⟨[], w⟩ = (⟨[], w⟩, none) := rfl

theorem disgard_empty (w : World) :
    Revertable.disgard ⟨[], w⟩ = ⟨[], w⟩ := rfl

theorem disgardEntry_trace (e : TrackedEntry) (w : World) :
    (disgardEntry e w).trace = w.trace := by
  induction w using disgardEntry.induct e with
  | case1 w h => rw [disgardEntry_eq, h]
  | case2 w sid tl h ih =>
    rw [disgardEntry_eq, h]
    exact ih

theorem disgardEntry_segs (e : TrackedEntry) (w : World) :
    (disgardEntry e w).segs = w.segs := by
  induction w using disgardEntry.induct e with
  | case1 w h => rw [disgardEntry_eq, h]
  | case2 w sid tl h ih =>
    rw [disgardEntry_eq, h]
    exact ih

theorem disgardEntry_empties (e : TrackedEntry) (w : World) :
    groupSegs (disgardEntry e w) e.trackingGroup = [] := by
  induction w using disgardEntry.induct e with
  | case1 w h => rw [disgardEntry_eq, h]; exact h
  | case2 w sid tl h ih =>
    rw [disgardEntry_eq, h]
    exact ih

theorem disgardEntry_preserves_empty (e : TrackedEntry) (w : World) :
    ∀ g, groupSegs w g = [] → groupSegs (disgardEntry e w) g = [] := by
  induction w using disgardEntry.induct e with
  | case1 w h =>
    intro g hg
    rw [disgardEntry_eq, h]
    exact hg
  | case2 w sid tl h ih =>
    intro g hg
    rw [disgardEntry_eq, h]
    apply ih
    by_cases hgt : g = e.trackingGroup
    · subst hgt; rw [hg] at h; cases h
    · rw [groupSegs_unlink_other _ _ _ _ hgt]; exact hg

theorem disgardList_trace (ts : List TrackedEntry) (w : World) :
    (disgardList ts w).trace = w.trace := by
  induction ts generalizing w with
  | nil => rfl
  | cons e rest ih =>
    simp only [disgardList]
    rw [ih, disgardEntry_trace]

theorem disgardList_segs (ts : List TrackedEntry) (w : World) :
    (disgardList ts w).segs = w.segs := by
  induction ts generalizing w with
  | nil => rfl
  | cons e rest ih =>
    simp only [disgardList]
    rw [ih, disgardEntry_segs]

theorem disgardList_preserves_empty (ts : List TrackedEntry) (w : World)
    (g : Nat) (h : groupSegs w g = []) : groupSegs (disgardList ts w) g = [] := by
  induction ts generalizing w with
  | nil => exact h
  | cons e rest ih =>
    simp only [disgardList]
    exact ih _ (disgardEntry_preserves_empty e w g h)

theorem disgardList_empties (ts : List TrackedEntry) (w : World)
    (e : TrackedEntry) (h : e ∈ ts) :
    groupSegs (disgardList ts w) e.trackingGroup = [] := by
  induction ts generalizing w with
  | nil => cases h
  | cons f rest ih =>
    rcases List.mem_cons.mp h with rfl | hmem
    · simp only [disgardList]
      exact disgardList_preserves_empty rest _ _ (disgardEntry_empties e w)
    · simp only [disgardList]
      exact ih _ hmem

theorem drainEntryFuel_spec (n : Nat) :
    ∀ (e : TrackedEntry) (w : World),
      (groupSegs w e.trackingGroup).length < n →
      drainEntryFuel n e w = some (drainEntry e w) := by
  induction n with
  | zero => intro e w h; omega
  | succ m ih =>
    intro e w h
    rw [drainEntry_eq]
    simp only [drainEntryFuel]
    rcases hg : groupSegs w e.trackingGroup with _ | ⟨sid, tl⟩
    · rfl
    · rcases hr : (revertSegment w e.operation e.propertyDelta e.trackingGroup sid).2
        with _ | err
      · simp only [hr]
        apply ih
        have hlen : groupSegs
            (revertSegment w e.operation e.propertyDelta e.trackingGroup sid).1
            e.trackingGroup = eraseSeg sid (groupSegs w e.trackingGroup) :=
          revertSegment_groupSegs _ _ _ _ _
        rw [hlen, hg]
        simp only [eraseSeg, if_pos rfl, if_true]
        have := length_eraseSeg_le sid tl
        rw [hg] at h
        simp only [List.length_cons] at h
        omega
      · simp only [hr]

theorem disgardEntryFuel_spec (n : Nat) :
    ∀ (e : TrackedEntry) (w : World),
      (groupSegs w e.trackingGroup).length < n →
      disgardEntryFuel n e w = some (disgardEntry e w) := by
  induction n with
  | zero => intro e w h; omega
  | succ m ih =>
    intro e w h
    rw [disgardEntry_eq]
    simp only [disgardEntryFuel]
    rcases hg : groupSegs w e.trackingGroup with _ | ⟨sid, tl⟩
    · rfl
    · apply ih
      rw [groupSegs_unlink_self, hg]
      simp only [eraseSeg, if_pos rfl, if_true]
      have := length_eraseSeg_le sid tl
      rw [hg] at h
      simp only [List.length_cons] at h
      omega

theorem getContainingSegment_offset_lt (segs : List MatrixSeg) (pos : Nat)
    (s : MatrixSeg) (off : Nat)
    (h : getContainingSegment segs pos = some (s, off)) : off < s.cachedLength := by
  induction segs generalizing pos with
  | nil => cases h
  | cons x rest ih =>
    simp only [getContainingSegment] at h
    by_cases hlt : pos < x.cachedLength
    · rw [if_pos hlt] at h
      injection h with h1
      injection h1 with hs hoff
      subst hs; subst hoff
      exact hlt
    · rw [if_neg hlt] at h
      exact ih _ h

theorem addLoop_match_aux (op : MergeTreeDeltaType) (c : TrackedEntry)
    (hop : c.operation = op) :
    ∀ (rs : List SequenceDeltaRange) (tracking : List TrackedEntry) (w : World),
      (∀ x ∈ rs, matchProperties c.propertyDelta x.propertyDeltas = true) →
      (alookup c.trackingGroup w.groups).isSome = true →
      (addLoop op rs (some c) tracking w).1 = tracking ∧
      (∀ s, s ∈ groupSegs (addLoop op rs (some c) tracking w).2 c.trackingGroup ↔
        (s ∈ groupSegs w c.trackingGroup ∨ s ∈ rs.map SequenceDeltaRange.segment)) := by
  intro rs
  induction rs with
  | nil =>
    intro tracking w hmatch hsome
    simp [addLoop]
  | cons r rs ih =>
    intro tracking w hmatch hsome
    have hcond : c.operation = op ∧ matchProperties c.propertyDelta r.propertyDeltas = true :=
      ⟨hop, hmatch r (List.mem_cons_self r rs)⟩
    simp only [addLoop, if_pos hcond]
    have hsome2 : (alookup c.trackingGroup
        (linkSeg w c.trackingGroup r.segment).groups).isSome = true := by
      rw [isSome_link]; exact hsome
    obtain ⟨h1, h2⟩ := ih tracking (linkSeg w c.trackingGroup r.segment)
      (fun x hx => hmatch x (List.mem_cons_of_mem r hx)) hsome2
    refine ⟨h1, fun s => ?_⟩
    rw [h2 s, groupSegs_link_self _ _ _ hsome, mem_linkList]
    simp only [List.map_cons, List.mem_cons]
    tauto

theorem migrateLinks_mem (w : World) (oldSeg newSeg g : Nat) (hne : oldSeg ≠ newSeg)
    (h : oldSeg ∈ groupSegs w g) :
    newSeg ∈ groupSegs (migrateLinks w oldSeg newSeg) g ∧
    oldSeg ∉ groupSegs (migrateLinks w oldSeg newSeg) g := by
  rw [groupSegs_migrateLinks, if_pos h]
  simp only [migrateGroup]
  constructor
  · rw [mem_eraseSeg]
    exact ⟨(mem_linkList _ _ _).mpr (Or.inr rfl), Ne.symm hne⟩
  · exact not_mem_eraseSeg_self _ _

theorem migrateLinks_not_mem (w : World) (oldSeg newSeg g : Nat) :
    oldSeg ∉ groupSegs (migrateLinks w oldSeg newSeg) g := by
  rw [groupSegs_migrateLinks]
  by_cases hm : oldSeg ∈ groupSegs w g
  · rw [if_pos hm]
    simp only [migrateGroup]
    exact not_mem_eraseSeg_self _ _
  · rw [if_neg hm]
    exact hm

theorem add_ranges_cons (st : Revertable) (event : SequenceDeltaEvent)
    (r : SequenceDeltaRange) (rs : List SequenceDeltaRange)
    (hr : event.ranges = r :: rs) :
    Revertable.add st event =
      ⟨(addLoop event.deltaOperation (r :: rs) st.tracking.getLast?
          st.tracking st.world).1,
       (addLoop event.deltaOperation (r :: rs) st.tracking.getLast?
          st.tracking st.world).2⟩ := by
  simp only [Revertable.add, hr]
  rw [if_pos (by rw [List.length_cons]; exact Nat.succ_pos _ :
    ((r :: rs).length > 0))]

/-! Claim theorems. -/

/-- C1: contrary to the claim, the revert switch of the source raises the
fatal "operationt type not revertable" error when `annotate` is the matched
kind: the `ANNOTATE` case re-applies the recorded property delta over the
segment's current extent (the annotate call is issued, as the trace shows)
but then, lacking a `break`, falls through into the `default` arm and
throws.  Reverting a revertable holding a single annotate entry over a live
segment therefore both annotates and reports the fatal error. -/
theorem annotate_revert_throws :
    (Revertable.revert annotateExample).2 = some "operationt type not revertable" ∧
    (Revertable.revert annotateExample).1.world.trace =
      [EngineOp.annotateRange 0 1 [("bold", 1)]] := by
  have h : Revertable.revert annotateExample =
      (⟨[], (drainEntry ⟨10, [("bold", 1)], MergeTreeDeltaType.annotate⟩
        annotateExample.world).1⟩,
       (drainEntry ⟨10, [("bold", 1)], MergeTreeDeltaType.annotate⟩
        annotateExample.world).2) := revert_single _ _
  rw [h, drainEntry_eq]
  exact ⟨rfl, rfl⟩

theorem flNat_of_le (n : Nat) (h : n ≤ 2 ^ 53) : flNat n = n := by
  unfold flNat
  rw [if_pos h]

theorem bitsFuel_le (f : Nat) : ∀ n c : Nat, n < 2 ^ c → c ≤ f → bitsFuel f n ≤ c := by
  induction f with
  | zero => intro n c h hc; exact Nat.zero_le c
  | succ f ih =>
    intro n c h hc
    by_cases hn : n = 0
    · simp [bitsFuel, hn]
    · have hcpos : 1 ≤ c := by
        rcases Nat.eq_zero_or_pos c with rfl | hcp
        · simp at h; omega
        · exact hcp
      obtain ⟨c', rfl⟩ : ∃ c', c = c' + 1 := ⟨c - 1, by omega⟩
      have hdiv : n / 2 < 2 ^ c' := by
        rw [pow_succ] at h
        omega
      simp only [bitsFuel, if_neg hn]
      have := ih (n / 2) c' hdiv (by omega)
      omega

theorem roundTiesEvenDiv_add_mul (c x b : Nat) (hb : 0 < b)
    (hnt : 2 * (x % b) ≠ b) :
    roundTiesEvenDiv (c * b + x) b = c + roundTiesEvenDiv x b := by
  unfold roundTiesEvenDiv
  have hq : (c * b + x) / b = c + x / b := by
    rw [Nat.add_comm, Nat.add_mul_div_right _ _ hb, Nat.add_comm]
  have hr : (c * b + x) % b = x % b := by
    rw [Nat.add_comm, Nat.add_mul_mod_self_right]
  rw [hq, hr]
  rcases lt_trichotomy (2 * (x % b)) b with h | h | h
  · rw [if_pos h, if_pos h]
  · exact absurd h hnt
  · rw [if_neg (by omega), if_pos h, if_neg (by omega), if_pos h]
    omega

theorem roundTiesEvenDiv_lt (x b M : Nat) (hb : 0 < b)
    (hx : 2 * x + b ≤ 2 * (M * b)) (hnt : 2 * (x % b) ≠ b) :
    roundTiesEvenDiv x b < M := by
  unfold roundTiesEvenDiv
  have hqr := Nat.div_add_mod x b
  have hrb : x % b < b := Nat.mod_lt _ hb
  rcases lt_trichotomy (2 * (x % b)) b with h | h | h
  · rw [if_pos h]
    refine (Nat.div_lt_iff_lt_mul hb).mpr ?_
    omega
  · exact absurd h hnt
  · rw [if_neg (by omega), if_pos h]
    have h1 : (x / b + 1) * (2 * b) < M * (2 * b) := by
      have e1 : (x / b + 1) * (2 * b) = 2 * (b * (x / b)) + 2 * b := by ring
      have e2 : M * (2 * b) = 2 * (M * b) := by ring
      omega
    exact Nat.lt_of_mul_lt_mul_right h1

theorem jsFloorDiv_eq_div (a : Nat) (ha : a ≤ 2 ^ 53) :
    jsFloorDiv a maxCols = a / maxCols := by
  have hbne : (maxCols : Nat) ≠ 0 := by decide
  have hbpos : 0 < maxCols := by decide
  unfold jsFloorDiv
  rw [if_neg hbne]
  by_cases hab : a < maxCols
  · rw [if_pos hab]
    have h1 : ¬ 2 ^ 54 * (maxCols - a) ≤ maxCols := by
      have h2 : 2 ^ 54 * 1 ≤ 2 ^ 54 * (maxCols - a) :=
        Nat.mul_le_mul_left _ (by omega)
      have h3 : maxCols < 2 ^ 54 := by decide
      omega
    rw [if_neg h1, Nat.div_eq_of_lt hab]
  · rw [if_neg hab]
    push_neg at hab
    have hdlt : a / maxCols < 2 ^ 32 := by
      have h2 : a / maxCols ≤ 2 ^ 53 / maxCols := Nat.div_le_div_right ha
      have h3 : 2 ^ 53 / maxCols < 2 ^ 32 := by decide
      omega
    have hbits : bits (a / maxCols) ≤ 32 := bitsFuel_le 128 _ 32 hdlt (by omega)
    have hk : bits (a / maxCols) - 1 ≤ 52 := by omega
    rw [if_pos hk]
    have hm21 : 21 ≤ 52 - (bits (a / maxCols) - 1) := by omega
    generalize hm : 52 - (bits (a / maxCols) - 1) = m at *
    have hdm := Nat.div_add_mod a maxCols
    have hrb : a % maxCols < maxCols := Nat.mod_lt _ hbpos
    have hsplit : a * 2 ^ m = (a / maxCols * 2 ^ m) * maxCols + a % maxCols * 2 ^ m := by
      calc a * 2 ^ m = (maxCols * (a / maxCols) + a % maxCols) * 2 ^ m := by rw [hdm]
        _ = (a / maxCols * 2 ^ m) * maxCols + a % maxCols * 2 ^ m := by ring
    have hodd : ∀ z : Nat, 2 * (z % maxCols) ≠ maxCols := by
      intro z
      have h2 : maxCols % 2 = 1 := by decide
      omega
    rw [hsplit, roundTiesEvenDiv_add_mul _ _ _ hbpos (hodd _)]
    have ht : roundTiesEvenDiv (a % maxCols * 2 ^ m) maxCols < 2 ^ m := by
      apply roundTiesEvenDiv_lt _ _ _ hbpos ?_ (hodd _)
      have hble : maxCols ≤ 2 ^ (m + 1) := by
        calc maxCols ≤ 2 ^ 22 := by decide
          _ ≤ 2 ^ (m + 1) := Nat.pow_le_pow_right (by omega) (by omega)
      calc 2 * (a % maxCols * 2 ^ m) + maxCols
          ≤ 2 * (a % maxCols * 2 ^ m) + 2 ^ (m + 1) := by omega
        _ = (a % maxCols + 1) * 2 ^ (m + 1) := by rw [pow_succ]; ring
        _ ≤ maxCols * 2 ^ (m + 1) := Nat.mul_le_mul_right _ (by omega)
        _ = 2 * (2 ^ m * maxCols) := by rw [pow_succ]; ring
    rw [Nat.add_comm, Nat.add_mul_div_right _ _ (Nat.pos_pow_of_pos m (by omega)),
      Nat.div_eq_of_lt ht, Nat.zero_add]

/-- C2 counterexample: at `row = 4294967294`, `col = 1` — inside the
claimed bounds — the double-precision product exceeds `2 ^ 53`, so the
computed position rounds away from `row * maxCols + col` and the round
trip comes back with `col = 2`. -/
theorem rowcol_position_roundtrip_counterexample :
    4294967294 < maxRow ∧ 1 < maxCol ∧
    4294967294 * maxCols + 1 = 9007203545513983 ∧
    rowColToPosition 4294967294 1 = 9007203545513984 ∧
    positionToRowCol (rowColToPosition 4294967294 1) = ⟨4294967294, 2⟩ ∧
    positionToRowCol (rowColToPosition 4294967294 1) ≠ ⟨4294967294, 1⟩ := by
  decide

/-- C2 (amended): for every `row` in `[0, maxRow)` and `col` in
`[0, maxCol)` whose position stays within the exactly-representable
double range (`row * maxCols + col ≤ 2 ^ 53`), `rowColToPosition row col`
equals `row * maxCols + col` with `maxCols` the fixed constant
`maxCol + 1`, and `positionToRowCol` maps the result back to exactly
`(row, col)`.  Beyond that boundary — still inside the claimed bounds —
the round trip fails, as the counterexample shows. -/
theorem rowcol_position_roundtrip (row col : Nat)
    (hrow : row < maxRow) (hcol : col < maxCol)
    (hsafe : row * maxCols + col ≤ 2 ^ 53) :
    rowColToPosition row col = row * maxCols + col ∧
    positionToRowCol (rowColToPosition row col) = ⟨row, col⟩ := by
  have hmc : maxCols = maxCol + 1 := rfl
  have hc : col < maxCols := by omega
  have hpos : 0 < maxCols := by omega
  have hmul : row * maxCols ≤ 2 ^ 53 := by omega
  have h1 : rowColToPosition row col = row * maxCols + col := by
    unfold rowColToPosition
    rw [flNat_of_le _ hmul, flNat_of_le _ hsafe]
  refine ⟨h1, ?_⟩
  rw [h1]
  have hdiv : (row * maxCols + col) / maxCols = row := by
    rw [Nat.mul_comm, Nat.mul_add_div hpos, Nat.div_eq_of_lt hc, Nat.add_zero]
  show RowCol.mk (jsFloorDiv (row * maxCols + col) maxCols)
      (flNat (row * maxCols + col -
        flNat (jsFloorDiv (row * maxCols + col) maxCols * maxCols))) = ⟨row, col⟩
  rw [jsFloorDiv_eq_div _ hsafe, hdiv, flNat_of_le _ hmul]
  congr 1
  have h2 : row * maxCols + col - row * maxCols = col := by omega
  rw [h2, flNat_of_le _ (by omega)]

/-- Witness for C2 at the largest row that is safe for every column. -/
theorem rowcol_position_roundtrip_witness :
    rowColToPosition 4294965247 7 = 4294965247 * maxCols + 7 ∧
    positionToRowCol (rowColToPosition 4294965247 7) = ⟨4294965247, 7⟩ :=
  rowcol_position_roundtrip 4294965247 7 (by decide) (by decide) (by decide)

/-- C5: `insertCols(col, n)` submits, as one single grouped message, for
every existing row the removal of `[rowStart + maxCol - n, rowStart +
maxCol)` followed by the insertion of fresh padding of length `n` at
`rowStart + col`; `removeCols(col, n)` submits, likewise as one grouped
message, per row the removal of `[rowStart + col, rowStart + col + n)`
followed by insertion of `n` padding at `rowStart + maxCol - n`. -/
theorem insert_remove_cols_ops (log : List GroupOp) (numRows col n : Nat)
    (hn : n ≤ maxCol) :
    insertCols log numRows col n = log ++
      [⟨(List.range numRows).flatMap (fun r =>
        [MatrixOp.removeRange (r * maxCols + (maxCol - n)) (r * maxCols + maxCol),
         MatrixOp.insertPadding (r * maxCols + col) n])⟩] ∧
    removeCols log numRows col n = log ++
      [⟨(List.range numRows).flatMap (fun r =>
        [MatrixOp.removeRange (r * maxCols + col) (r * maxCols + col + n),
         MatrixOp.insertPadding (r * maxCols + (maxCol - n)) n])⟩] := by
  have key : ∀ r : Nat, r * maxCols + (maxCol - n) + n = r * maxCols + maxCol := by
    intro r; omega
  constructor
  · simp only [insertCols, submitSequenceMessage, moveAsPadding]
    simp only [key]
  · simp only [removeCols, submitSequenceMessage, moveAsPadding]

/-- Witness for C5 with two rows, `col = 1`, `n = 2`. -/
theorem insert_remove_cols_ops_witness :
    insertCols [] 2 1 2 = [⟨(List.range 2).flatMap (fun r =>
        [MatrixOp.removeRange (r * maxCols + (maxCol - 2)) (r * maxCols + maxCol),
         MatrixOp.insertPadding (r * maxCols + 1) 2])⟩] ∧
    removeCols [] 2 1 2 = [⟨(List.range 2).flatMap (fun r =>
        [MatrixOp.removeRange (r * maxCols + 1) (r * maxCols + 1 + 2),
         MatrixOp.insertPadding (r * maxCols + (maxCol - 2)) 2])⟩] :=
  insert_remove_cols_ops [] 2 1 2 (by decide)

/-- C8: whenever the containing segment of `(row, col)` resolves, `getItem`
yields the item at the in-segment offset for a run segment (and the offset
is within the run, so the item exists), yields "empty" without error for a
padding segment, and raises the unrecognized-segment error for any other
segment kind. -/
theorem getItem_kind_cases (segs : List MatrixSeg) (row col : Nat)
    (s : MatrixSeg) (off : Nat)
    (h : getContainingSegment segs (rowColToPosition row col) = some (s, off)) :
    (∀ items, s = MatrixSeg.run items →
      getItem segs row col = Except.ok (items.get? off) ∧ off < items.length) ∧
    (∀ len, s = MatrixSeg.pad len → getItem segs row col = Except.ok none) ∧
    (∀ len, s = MatrixSeg.other len →
      getItem segs row col = Except.error "Unrecognized Segment type") := by
  refine ⟨?_, ?_, ?_⟩
  · intro items hs
    subst hs
    refine ⟨by simp [getItem, h], ?_⟩
    have hlt := getContainingSegment_offset_lt segs _ _ _ h
    simpa [MatrixSeg.cachedLength] using hlt
  · intro len hs
    subst hs
    simp [getItem, h]
  · intro len hs
    subst hs
    simp [getItem, h]

/-- Witness for C8 on a run, a padding and an unrecognized segment. -/
theorem getItem_kind_cases_witness :
    getItem matrixExample 0 1 = Except.ok (some 8) ∧
    getItem matrixExample 0 3 = Except.ok none ∧
    getItem matrixExample 0 8 = Except.error "Unrecognized Segment type" := by
  refine ⟨?_, ?_, ?_⟩
  · exact ((getItem_kind_cases matrixExample 0 1 (MatrixSeg.run [7, 8]) 1
      (by decide)).1 [7, 8] rfl).1
  · exact (getItem_kind_cases matrixExample 0 3 (MatrixSeg.pad 5) 1
      (by decide)).2.1 5 rfl
  · exact (getItem_kind_cases matrixExample 0 8 (MatrixSeg.other 3) 1
      (by decide)).2.2 3 rfl

/-- C9: a delta event whose locality flag is false changes nothing in the
handler: no revertable is created, nothing is pushed to the stack manager,
the sequence map and the world are untouched. -/
theorem nonlocal_event_ignored (hs : HandlerState) (target : Nat)
    (event : SequenceDeltaEvent) (h : event.isLocal = false) :
    sequenceDeltaHandler hs target event = hs := by
  simp [sequenceDeltaHandler, h]

/-- Witness for C9 on a concrete remote event. -/
theorem nonlocal_event_ignored_witness :
    sequenceDeltaHandler handlerExample 1 eventRemote = handlerExample :=
  nonlocal_event_ignored handlerExample 1 eventRemote rfl

/-- C10: both inner drain loops terminate: running them with an iteration
budget of the group's current size plus one already reaches the loop's
fixed point (each iteration unlinks `segments[0]`, strictly shrinking the
group), and the outer loops recurse structurally on the entry list, popping
one entry per iteration. -/
theorem drain_loops_terminate (e : TrackedEntry) (w : World) :
    drainEntryFuel ((groupSegs w e.trackingGroup).length + 1) e w =
      some (drainEntry e w) ∧
    disgardEntryFuel ((groupSegs w e.trackingGroup).length + 1) e w =
      some (disgardEntry e w) :=
  ⟨drainEntryFuel_spec _ e w (Nat.lt_succ_self _),
   disgardEntryFuel_spec _ e w (Nat.lt_succ_self _)⟩

/-- C4: when `revert()` processes a remove entry, each drained segment is
reverted by reconstructing a fresh segment from the removed segment's
serialized form and inserting it at a transient reference anchored at that
segment (the issued engine call carries the anchor, the fresh id and the
serialized shape), with no error; afterwards every tracking group still
linked to the old removed segment (after the entry's own unlink) is linked
to the newly inserted segment and unlinked from the old one, and no group
links the old segment any more. -/
theorem revert_remove_reinserts (w : World) (props : PropertySet) (tg sid : Nat)
    (hspec : (lookupSeg w sid).spec ≠ SegSpec.other)
    (hfresh : sid ≠ w.nextSeg) :
    (revertSegment w MergeTreeDeltaType.remove props tg sid).2 = none ∧
    (revertSegment w MergeTreeDeltaType.remove props tg sid).1.trace =
      w.trace ++ [EngineOp.insertAtRef sid w.nextSeg (lookupSeg w sid).spec] ∧
    (∀ g, sid ∈ groupSegs (unlinkSeg w tg sid) g →
      w.nextSeg ∈ groupSegs (revertSegment w MergeTreeDeltaType.remove props tg sid).1 g ∧
      sid ∉ groupSegs (revertSegment w MergeTreeDeltaType.remove props tg sid).1 g) ∧
    (∀ g, sid ∉ groupSegs (revertSegment w MergeTreeDeltaType.remove props tg sid).1 g) := by
  rcases hsp : (lookupSeg w sid).spec with ⟨len, ps⟩ | ⟨vals, ps⟩ | _
  · simp only [revertSegment, lookupSeg_unlink, hsp, segmentFromSpec]
    refine ⟨by trivial, by trivial, ?_, ?_⟩
    · intro g hg
      exact migrateLinks_mem _ sid _ g hfresh hg
    · intro g
      exact migrateLinks_not_mem _ _ _ _
  · simp only [revertSegment, lookupSeg_unlink, hsp, segmentFromSpec]
    refine ⟨by trivial, by trivial, ?_, ?_⟩
    · intro g hg
      exact migrateLinks_mem _ sid _ g hfresh hg
    · intro g
      exact migrateLinks_not_mem _ _ _ _
  · exact absurd hsp hspec

/-- Witness for C4 on a removed segment linked by its entry group 10 and by
an unrelated group 20. -/
theorem revert_remove_reinserts_witness :
    (revertSegment removeExample MergeTreeDeltaType.remove [] 10 1).2 = none ∧
    (revertSegment removeExample MergeTreeDeltaType.remove [] 10 1).1.trace =
      removeExample.trace ++
        [EngineOp.insertAtRef 1 removeExample.nextSeg (lookupSeg removeExample 1).spec] ∧
    (removeExample.nextSeg ∈
      groupSegs (revertSegment removeExample MergeTreeDeltaType.remove [] 10 1).1 20 ∧
     1 ∉ groupSegs (revertSegment removeExample MergeTreeDeltaType.remove [] 10 1).1 20) ∧
    1 ∉ groupSegs (revertSegment removeExample MergeTreeDeltaType.remove [] 10 1).1 10 := by
  obtain ⟨h1, h2, h3, h4⟩ :=
    revert_remove_reinserts removeExample [] 10 1 (by decide) (by decide)
  exact ⟨h1, h2, h3 20 (by decide), h4 10⟩

/-- C6: `disgard()` issues no content-mutating engine operation (the trace
and segment store are unchanged), its only effect is on the tracking links:
on completion every group referenced by the revertable's entries has been
drained to size 0 and the entry list is empty. -/
theorem disgard_nonmutating (st : Revertable) :
    (Revertable.disgard st).world.trace = st.world.trace ∧
    (Revertable.disgard st).world.segs = st.world.segs ∧
    (Revertable.disgard st).tracking = [] ∧
    ∀ e ∈ st.tracking, groupSegs (Revertable.disgard st).world e.trackingGroup = [] := by
  refine ⟨disgardList_trace _ _, disgardList_segs _ _, rfl, ?_⟩
  intro e he
  exact disgardList_empties _ _ e (List.mem_reverse.mpr he)

/-- Witness for C6 on a two-entry revertable. -/
theorem disgard_nonmutating_witness :
    (Revertable.disgard disgardExample).world.trace = disgardExample.world.trace ∧
    (Revertable.disgard disgardExample).world.segs = disgardExample.world.segs ∧
    (Revertable.disgard disgardExample).tracking = [] ∧
    groupSegs (Revertable.disgard disgardExample).world 10 = [] ∧
    groupSegs (Revertable.disgard disgardExample).world 20 = [] := by
  obtain ⟨h1, h2, h3, h4⟩ := disgard_nonmutating disgardExample
  exact ⟨h1, h2, h3,
    h4 ⟨10, [], MergeTreeDeltaType.insert⟩ (by decide),
    h4 ⟨20, [], MergeTreeDeltaType.remove⟩ (by decide)⟩

/-- C7: after a `revert()` that completes without error the entry list is
empty, and a second `revert()` (or a `disgard()`) on the same revertable is
a no-op: it returns the state unchanged, with no further engine call and no
further unlink. -/
theorem revert_one_shot (st : Revertable)
    (h : (Revertable.revert st).2 = none) :
    (Revertable.revert st).1.tracking = [] ∧
    Revertable.revert (Revertable.revert st).1 = ((Revertable.revert st).1, none) ∧
    Revertable.disgard (Revertable.revert st).1 = (Revertable.revert st).1 := by
  have h1 : (Revertable.revert st).1.tracking = [] := by
    show (revertList st.tracking.reverse st.world).1.reverse = []
    rw [revertList_none_processed _ _ h]
    rfl
  have heq : (Revertable.revert st).1 = ⟨[], (Revertable.revert st).1.world⟩ := by
    rcases hx : (Revertable.revert st).1 with ⟨tr, wx⟩
    rw [hx] at h1
    simp only at h1
    subst h1
    rfl
  refine ⟨h1, ?_, ?_⟩
  · rw [heq]; exact revert_empty _
  · rw [heq]; exact disgard_empty _

/-- Witness for C7: reverting a one-entry insert revertable succeeds, and
reverting or discarding again is a no-op. -/
theorem revert_one_shot_witness :
    (Revertable.revert insertExample).1.tracking = [] ∧
    Revertable.revert (Revertable.revert insertExample).1 =
      ((Revertable.revert insertExample).1, none) ∧
    Revertable.disgard (Revertable.revert insertExample).1 =
      (Revertable.revert insertExample).1 := by
  have h : (Revertable.revert insertExample).2 = none := by
    show (Revertable.revert ⟨[⟨10, [], MergeTreeDeltaType.insert⟩],
      ⟨[(1, ⟨SegSpec.items [5] [], none, 1, 3⟩)], [(10, [1])], [], 2, 11⟩⟩).2 = none
    rw [revert_single, drainEntry_eq]
    norm_num [groupSegs, alookup, revertSegment, unlinkSeg, updGroup, eraseSeg,
      lookupSeg, addTrace, linkList]
    rw [drainEntry_eq]
    norm_num [groupSegs, alookup]
  exact revert_one_shot insertExample h

/-- C3: the recorder's coalescing.  (a) On an empty revertable, an event
whose ranges all carry a property delta matching the first range's produces
exactly one tracked entry (the event's kind is shared by all its ranges),
whose fresh tracking group links exactly the segments of all N ranges.
(b) The scan starts from the current tail entry, so a later add() whose
ranges match the tail entry's kind and delta appends no entry and links all
segments into the tail's existing group.  (c) A range whose kind or delta
differs from the tail entry's starts a fresh group holding exactly its
segment and appends a new entry, which becomes the new tail. -/
theorem add_coalesces_entries (st : Revertable) (event : SequenceDeltaEvent) :
    (∀ r rs, st.tracking = [] → event.ranges = r :: rs →
      (∀ x ∈ rs, matchProperties r.propertyDeltas x.propertyDeltas = true) →
      (∀ p ∈ st.world.groups, p.1 ≠ st.world.nextGroup) →
      (Revertable.add st event).tracking =
        [⟨st.world.nextGroup, r.propertyDeltas, event.deltaOperation⟩] ∧
      (∀ s, s ∈ groupSegs (Revertable.add st event).world st.world.nextGroup ↔
        s ∈ event.ranges.map SequenceDeltaRange.segment)) ∧
    (∀ ts c, st.tracking = ts ++ [c] → c.operation = event.deltaOperation →
      (∀ x ∈ event.ranges, matchProperties c.propertyDelta x.propertyDeltas = true) →
      (alookup c.trackingGroup st.world.groups).isSome = true →
      (Revertable.add st event).tracking = st.tracking ∧
      (∀ s, s ∈ groupSegs (Revertable.add st event).world c.trackingGroup ↔
        (s ∈ groupSegs st.world c.trackingGroup ∨
         s ∈ event.ranges.map SequenceDeltaRange.segment))) ∧
    (∀ ts c r, st.tracking = ts ++ [c] → event.ranges = [r] →
      ¬ (c.operation = event.deltaOperation ∧
         matchProperties c.propertyDelta r.propertyDeltas = true) →
      (∀ p ∈ st.world.groups, p.1 ≠ st.world.nextGroup) →
      (Revertable.add st event).tracking =
        st.tracking ++ [⟨st.world.nextGroup, r.propertyDeltas, event.deltaOperation⟩] ∧
      groupSegs (Revertable.add st event).world st.world.nextGroup = [r.segment]) := by
  refine ⟨?_, ?_, ?_⟩
  · intro r rs he hr hmatch hfresh
    rw [add_ranges_cons st event r rs hr, he]
    rw [show ([] : List TrackedEntry).getLast? = none from rfl]
    simp only [addLoop, List.nil_append]
    have hsomeA : (alookup
        (⟨st.world.nextGroup, r.propertyDeltas, event.deltaOperation⟩ :
          TrackedEntry).trackingGroup
        ({ st.world with
            groups := st.world.groups ++ [(st.world.nextGroup, [r.segment])],
            nextGroup := st.world.nextGroup + 1 } : World).groups).isSome = true := by
      show (alookup st.world.nextGroup
        (st.world.groups ++ [(st.world.nextGroup, [r.segment])])).isSome = true
      rw [alookup_append_fresh _ _ _ hfresh]
      rfl
    obtain ⟨h1, h2⟩ := addLoop_match_aux event.deltaOperation
      ⟨st.world.nextGroup, r.propertyDeltas, event.deltaOperation⟩ rfl rs
      [⟨st.world.nextGroup, r.propertyDeltas, event.deltaOperation⟩]
      { st.world with
          groups := st.world.groups ++ [(st.world.nextGroup, [r.segment])],
          nextGroup := st.world.nextGroup + 1 }
      hmatch hsomeA
    refine ⟨h1, fun s => Iff.trans (h2 s) ?_⟩
    rw [hr]
    have hw1 : groupSegs
        { st.world with
            groups := st.world.groups ++ [(st.world.nextGroup, [r.segment])],
            nextGroup := st.world.nextGroup + 1 }
        (⟨st.world.nextGroup, r.propertyDeltas, event.deltaOperation⟩ :
          TrackedEntry).trackingGroup = [r.segment] := by
      show (alookup st.world.nextGroup
        (st.world.groups ++ [(st.world.nextGroup, [r.segment])])).getD [] = [r.segment]
      rw [alookup_append_fresh _ _ _ hfresh]
      rfl
    rw [hw1]
    simp only [List.map_cons, List.mem_cons, List.mem_singleton]
    tauto
  · intro ts c he hop hmatch hsome
    rcases hr : event.ranges with _ | ⟨r, rs⟩
    · have hid : Revertable.add st event = st := by
        simp [Revertable.add, hr]
      rw [hid]
      refine ⟨rfl, fun s => ?_⟩
      simp
    · rw [add_ranges_cons st event r rs hr]
      have hlast : st.tracking.getLast? = some c := by
        rw [he, List.getLast?_append_cons]
        rfl
      rw [hlast]
      rw [hr] at hmatch
      obtain ⟨h1, h2⟩ := addLoop_match_aux event.deltaOperation c hop (r :: rs)
        st.tracking st.world hmatch hsome
      exact ⟨h1, fun s => h2 s⟩
  · intro ts c r he hr hcond hfresh
    rw [add_ranges_cons st event r [] hr]
    have hlast : st.tracking.getLast? = some c := by
      rw [he, List.getLast?_append_cons]
      rfl
    rw [hlast]
    simp only [addLoop]
    rw [if_neg hcond]
    simp only [addLoop]
    constructor
    · trivial
    · show (alookup st.world.nextGroup
        (st.world.groups ++ [(st.world.nextGroup, [r.segment])])).getD [] = [r.segment]
      rw [alookup_append_fresh _ _ _ hfresh]
      rfl

/-- Witness for C3: a three-range matching event on a fresh recorder
produces one entry linking all three segments; a matching later event
coalesces into the tail group; a mismatching event appends a new tail. -/
theorem add_coalesces_entries_witness :
    (Revertable.add recorderFresh eventMatching).tracking =
      [⟨100, [("x", 1)], MergeTreeDeltaType.annotate⟩] ∧
    (2 ∈ groupSegs (Revertable.add recorderFresh eventMatching).world 100) ∧
    (Revertable.add recorderTail eventMatchingMore).tracking =
      recorderTail.tracking ∧
    (4 ∈ groupSegs (Revertable.add recorderTail eventMatchingMore).world 100) ∧
    (Revertable.add recorderTail eventMismatch).tracking =
      recorderTail.tracking ++ [⟨101, [("y", 2)], MergeTreeDeltaType.annotate⟩] ∧
    groupSegs (Revertable.add recorderTail eventMismatch).world 101 = [5] := by
  obtain ⟨hA, _, _⟩ := add_coalesces_entries recorderFresh eventMatching
  obtain ⟨_, hB, _⟩ := add_coalesces_entries recorderTail eventMatchingMore
  obtain ⟨_, _, hC⟩ := add_coalesces_entries recorderTail eventMismatch
  obtain ⟨ha1, ha2⟩ := hA ⟨1, [("x", 1)]⟩ [⟨2, [("x", 1)]⟩, ⟨3, [("x", 1)]⟩]
    rfl rfl (by decide) (by decide)
  obtain ⟨hb1, hb2⟩ := hB [] ⟨100, [("x", 1)], MergeTreeDeltaType.annotate⟩
    rfl rfl (by decide) (by decide)
  obtain ⟨hc1, hc2⟩ := hC [] ⟨100, [("x", 1)], MergeTreeDeltaType.annotate⟩
    ⟨5, [("y", 2)]⟩ rfl rfl (by decide) (by decide)
  exact ⟨ha1, (ha2 2).mpr (by decide), hb1, (hb2 4).mpr (Or.inr (by decide)), hc1, hc2⟩
